import Mathlib

/-!
# UrchinLoop — verification of the natural-language specification

A shallow embedding of `src/urchinloop.js` (an LLM agent core: memory-layer
composition, a think–act–observe tool loop, and background maintenance jobs)
together with theorems settling the frozen claims about it.

Modelling conventions, used throughout:

* JS strings are Lean `String`s; `s.slice(0, n)` is modelled on the
  character list (`jsSlice`), and `Array.prototype.join(sep)` is `joinSep`.
  All string data appearing in the program is BMP text, for which JS
  UTF-16-unit indexing and Lean character indexing agree.
* JS objects used as string→value maps are association lists in insertion
  order (`Mem`); JS guarantees key uniqueness, which theorems that need it
  take as a `Nodup` hypothesis.  None of the program's keys are integer-like,
  so JS enumeration order is insertion order.
* JS numbers are modelled as exact arithmetic: `ℚ` (with `jsRound` for
  `Math.round`) where the program does rounding arithmetic, `ℝ` where it
  takes square roots (`cosineSimilarity`).
* Asynchronous external calls (the LLM, the embedding endpoint, the
  relevance filter built on them) are oracle parameters: total functions
  supplied by the environment.  `Promise.all` over per-job execution is
  modelled by an explicit completion-order schedule (`runSchedule`) that is
  proved irrelevant to the collected output.
-/

/- ════════════════════════════════════════════════════════════════════════
   PART I — DEFINITIONS (the embedding of src/urchinloop.js)
   ════════════════════════════════════════════════════════════════════════ -/

/- ────────────────────────────────────────────────────────────────────────
   JS string primitives
   ──────────────────────────────────────────────────────────────────────── -/

/-- JS `s.slice(0, n)` (take the first `n` characters). -/
def jsSlice (s : String) (n : Nat) : String := ⟨s.data.take n⟩

/-- JS `Array.prototype.join(sep)` on a list of strings. -/
def joinSep (sep : String) : List String → String
  | [] => ""
  | [s] => s
  | s :: rest => s ++ sep ++ joinSep sep rest

/- ────────────────────────────────────────────────────────────────────────
   Message stacks and `trimMessagesToBudget` (src/urchinloop.js:52-62)
   ──────────────────────────────────────────────────────────────────────── -/

/-- A chat role (`'user'` / `'assistant'`). -/
inductive Role where
  | user
  | assistant
deriving DecidableEq, Repr

/-- One entry of the message stack: `{role, content}`. -/
structure Message where
  role : Role
  content : String
deriving DecidableEq, Repr

/-- Total character count of a stack, `messages.reduce((s,m) => s + m.content.length, 0)`. -/
def msgsTotal (l : List Message) : Nat := (l.map (fun m => m.content.length)).sum

/-- The body of one trim iteration (src/urchinloop.js:57):
`messages[i].content = messages[i].content.slice(0, 200) + '…[trimmed]'`. -/
def trimContent (s : String) : String := jsSlice s 200 ++ "…[trimmed]"

/-- The `while (total > budget && i < messages.length - 2)` loop of
`trimMessagesToBudget`, as structural recursion: `k` is the number of
entries the index `i` may still visit (`messages.length - 2 - i`), `total`
the running character total. -/
def trimGo (budget : Nat) : Nat → Nat → List Message → List Message
  | _, 0, msgs => msgs
  | _, _ + 1, [] => []
  | total, k + 1, m :: rest =>
      if budget < total then
        let c := trimContent m.content
        ⟨m.role, c⟩ :: trimGo budget (total - m.content.length + c.length) k rest
      else m :: rest

/-- `trimMessagesToBudget(messages, budget)` (src/urchinloop.js:52-62):
truncate the content of the oldest entries, never touching the last two,
until the total fits the budget or only the last two remain. -/
def trimMessagesToBudget (msgs : List Message) (budget : Nat) : List Message :=
  trimGo budget (msgsTotal msgs) (msgs.length - 2) msgs

/- ────────────────────────────────────────────────────────────────────────
   `cosineSimilarity` (src/urchinloop.js:98-107), over real arithmetic.
   JS doubles are idealised as ℝ; `Math.sqrt` is `Real.sqrt`.
   ──────────────────────────────────────────────────────────────────────── -/

/-- The loop accumulator `dot` of `cosineSimilarity`: `Σ a[i]*b[i]`. -/
def dotList (a b : List ℝ) : ℝ := (List.zipWith (· * ·) a b).sum

/-- The loop accumulator `magA` (resp. `magB`): `Σ a[i]*a[i]`. -/
def magSq (a : List ℝ) : ℝ := (a.map (fun x => x * x)).sum

/-- `cosineSimilarity(a, b)` (src/urchinloop.js:98-107).  `none` models a
missing (`undefined`/`null`) argument: `if (!a || !b || a.length !== b.length)
return 0`, then `denom === 0 ? 0 : dot / denom`. -/
noncomputable def cosineSimilarity : Option (List ℝ) → Option (List ℝ) → ℝ
  | some a, some b =>
      if a.length ≠ b.length then 0
      else
        let denom := Real.sqrt (magSq a) * Real.sqrt (magSq b)
        if denom = 0 then 0 else dotList a b / denom
  | _, _ => 0

/- ────────────────────────────────────────────────────────────────────────
   Skills and the skill-evaluation update (src/urchinloop.js:556-589)
   ──────────────────────────────────────────────────────────────────────── -/

/-- A learned skill; `Option` fields model properties the `??`/`||`
defaults guard against being absent. -/
structure Skill where
  name : String
  instruction : String
  score : Option ℤ
  usageCount : Option Nat
  lastUsedAt : Option Nat
  evalCount : Option Nat
  learnedAt : Option Nat
  lastEvalAt : Option Nat
deriving DecidableEq, Repr

/-- JS `Math.round` on an exact rational: round half toward `+∞`. -/
def jsRound (x : ℚ) : ℤ := ⌊x + 1 / 2⌋

/-- `Math.max(0, Math.min(100, newScore))` (src/urchinloop.js:573). -/
def clampScore (x : ℚ) : ℚ := max 0 (min 100 x)

/-- The per-skill update of the skill-evaluation job
(src/urchinloop.js:572-575): smooth the score, stamp `lastEvalAt`, bump
`evalCount`.  `newScore` is the model-returned number for this skill. -/
def evalSkillUpdate (s : Skill) (newScore : ℚ) (now : Nat) : Skill :=
  let oldScore : ℤ := s.score.getD 50
  { s with
    score := some (jsRound ((oldScore : ℚ) * 0.6 + clampScore newScore * 0.4)),
    lastEvalAt := some now,
    evalCount := some (s.evalCount.getD 0 + 1) }

/-- The spec's description of the score update, verbatim from its words:
`newScore = round(old*0.6 + clamp(eval,0,100)*0.4)` — stated separately so
the code's update can be compared against it. -/
def specSkillScore (old : ℚ) (evalScore : ℚ) : ℤ :=
  jsRound (old * 0.6 + max 0 (min 100 evalScore) * 0.4)

-- ===== memory model =====

/-- A JS object used as a string-to-string map (`urchinMemory`, `urchinProfile`):
an association list in insertion order.  JS guarantees key uniqueness; theorems
that need it take a `Nodup` hypothesis. -/
abbrev Mem := List (String × String)

/-- JS `s.startsWith(p)`. -/
def jsStartsWith (s p : String) : Bool := p.data.isPrefixOf s.data

/-- JS `s.trim()`: strip whitespace from both ends. -/
def jsTrim (s : String) : String :=
  ⟨((s.data.dropWhile Char.isWhitespace).reverse.dropWhile Char.isWhitespace).reverse⟩

/-- A JS property read `mem[k]`; `none` models `undefined`. -/
def lookupMem : Mem → String → Option String
  | [], _ => none
  | (k', v) :: rest, k => if k' = k then some v else lookupMem rest k

/-- JS `Object.keys(mem)`, in insertion order. -/
def memKeys (mem : Mem) : List String := mem.map Prod.fst

/-- A JS property write `mem[k] = v`: an existing key keeps its position,
a new key is appended. -/
def objSet (mem : Mem) (k v : String) : Mem :=
  if (memKeys mem).contains k then
    mem.map (fun kv => if kv.1 = k then (k, v) else kv)
  else mem ++ [(k, v)]

/-- The memory write of the REMEMBER built-in tool (src/urchinloop.js:275-287)
once its parameter has parsed to `{key, value}`: the `if (!key)` guard fails the
call (a falsy key is modelled as the empty string), otherwise
`urchinMemory[key] = value` is persisted.  No cap is applied. -/
def rememberWrite (mem : Mem) (key value : String) : Mem :=
  if key = "" then mem else objSet mem key value

/-- A manual memory key (src/urchinloop.js:420): neither a `session_` summary
nor an internal underscore-prefixed key. -/
def isManualKey (k : String) : Bool := !jsStartsWith k "session_" && !jsStartsWith k "_"

/-- The manual keys of the store, oldest (earliest-inserted) first
(src/urchinloop.js:420). -/
def manualKeysOf (mem : Mem) : List String := (memKeys mem).filter isManualKey

/-- The manual-memory eviction step of `loadMemoryLayers`
(src/urchinloop.js:422-426): when more than 100 manual keys exist, delete the
oldest down to 100 and persist. -/
def evictManual (mem : Mem) : Mem :=
  let mk := manualKeysOf mem
  if mk.length > 100 then
    let toRemove := mk.take (mk.length - 100)
    mem.filter (fun kv => !toRemove.contains kv.1)
  else mem

-- descending insertion sort = `Object.keys(...).sort().reverse()` on distinct keys
/-- Insertion step of the descending sort below. -/
def insertDesc (x : String) : List String → List String
  | [] => [x]
  | y :: ys => if y < x then x :: y :: ys else y :: insertDesc x ys

/-- `keys.sort().reverse()` on distinct keys: descending lexicographic order
(JS sorts by UTF-16 units; identical to scalar-value order on the BMP text
at hand). -/
def sortDesc (l : List String) : List String := l.foldr insertDesc []

/-- The `sessionKeys` of `loadMemoryLayers` (src/urchinloop.js:419):
session-summary keys, most recent (lexicographically greatest) first. -/
def sessionKeysOf (mem : Mem) : List String :=
  sortDesc ((memKeys mem).filter (fun k => jsStartsWith k "session_"))

/-- The `allMemEntries` object of `loadMemoryLayers` (src/urchinloop.js:428-431):
the 20 most recent session summaries plus the post-eviction manual entries. -/
def candidateEntries (mem : Mem) : List (String × String) :=
  let mem' := evictManual mem
  ((sessionKeysOf mem).take 20).map (fun k => (k, (lookupMem mem' k).getD ""))
    ++ (manualKeysOf mem').map (fun k => (k, (lookupMem mem' k).getD ""))

/-- One candidate returned by the relevance filter: `{key, value, sim}`
(src/urchinloop.js:195). -/
structure RelCandidate where
  key : String
  value : String
  sim : ℚ

/-- A record of one invocation of `relevanceFilterMemories`: the query, entry
set and `maxResults` it was called with. -/
structure FilterCall where
  query : String
  entries : List (String × String)
  maxResults : Nat

/-- `relevanceFilterMemories(userInput, memories, storage, settings, maxResults)`
(src/urchinloop.js:179-215) as an oracle: its scores come from the embedding
endpoint (network I/O), so its return value is a parameter of the embedding
and the claims about `loadMemoryLayers` hold for every oracle. -/
abbrev RelFilter := String → List (String × String) → Nat → List RelCandidate

/-- JS `new Set(l)`: deduplicate keeping first occurrences, in order. -/
def jsSetOf (l : List String) : List String :=
  l.foldl (fun acc x => if acc.contains x then acc else acc ++ [x]) []

/-- JS `set.add(x)` on the list model of a Set. -/
def jsSetAdd (l : List String) (x : String) : List String :=
  if l.contains x then l else l ++ [x]

/-- Output of memory layer 5: the text appended to the current-turn message,
and the log of relevance-filter invocations made while building it. -/
structure MemLayer where
  part : String
  calls : List FilterCall

/-- Layer 5 of `loadMemoryLayers` (src/urchinloop.js:418-464): enforce the
manual cap, then either inject all candidate entries directly (when they number
at most 6) or run the relevance filter, force-add the most recent session
summary to the session set, and fall back to showing all manual entries when
filtering returned none of them and the manual set is small. -/
def memoryLayerParts (relFilter : RelFilter) (userInput : String) (mem : Mem) : MemLayer :=
  let mem' := evictManual mem
  let sessionKeys := sessionKeysOf mem
  let currentManualKeys := manualKeysOf mem'
  let allMemEntries := candidateEntries mem
  if allMemEntries.length ≤ 6 then
    let sessPart := if sessionKeys.length > 0 then
        "\n\n[Past session summaries:\n" ++
          joinSep "\n---\n" ((sessionKeys.take 10).map (fun k => (lookupMem mem' k).getD "")) ++ "]"
      else ""
    let manPart := if currentManualKeys.length > 0 then
        "\n\n[Saved memories:\n" ++
          joinSep "\n" (currentManualKeys.map (fun k => "  " ++ k ++ ": " ++ (lookupMem mem' k).getD "")) ++ "]"
      else ""
    { part := sessPart ++ manPart, calls := [] }
  else
    let relevant := relFilter userInput allMemEntries 10
    let relevantSessions := relevant.filter (fun r => jsStartsWith r.key "session_")
    let relevantManual := relevant.filter (fun r => !jsStartsWith r.key "session_")
    let sessionList : List String := match sessionKeys.head? with
      | some k0 => jsSetAdd (jsSetOf (relevantSessions.map (fun r : RelCandidate => r.key))) k0
      | none => jsSetOf (relevantSessions.map (fun r : RelCandidate => r.key))
    let sessValues := (sessionList.filterMap (fun k => lookupMem mem' k)).filter (fun v => v ≠ "")
    let sessPart := if sessionList.length > 0 then
        "\n\n[Relevant session summaries (" ++ toString sessionList.length ++ "/" ++
          toString sessionKeys.length ++ " total):\n" ++ joinSep "\n---\n" sessValues ++ "]"
      else ""
    let manPart := if relevantManual.length > 0 then
        "\n\n[Relevant memories (" ++ toString relevantManual.length ++ "/" ++
          toString currentManualKeys.length ++ " total):\n" ++
          joinSep "\n" (relevantManual.map (fun r => "  " ++ r.key ++ ": " ++ r.value)) ++ "]"
      else if currentManualKeys.length > 0 && currentManualKeys.length ≤ 10 then
        "\n\n[Saved memories:\n" ++
          joinSep "\n" (currentManualKeys.map (fun k => "  " ++ k ++ ": " ++ (lookupMem mem' k).getD "")) ++ "]"
      else ""
    { part := sessPart ++ manPart, calls := [⟨userInput, allMemEntries, 10⟩] }

/-- `options.pageContext`; the empty string models an absent (falsy) field. -/
structure PageCtx where
  url : String
  title : String
  selection : String
  visibleText : String

/-- One captured-context item `{type, value}` (src/urchinloop.js:403). -/
structure CtxItem where
  type : String
  value : String

/-- One raw history entry `{role, text}` (src/urchinloop.js:388-392). -/
structure HistEntry where
  role : String
  text : String

/-- The fields of `options` that `loadMemoryLayers` reads
(src/urchinloop.js:364-367). -/
structure LoadOptions where
  userInput : String
  history : List HistEntry
  pageContext : PageCtx
  context : List CtxItem

/-- The storage regions `loadMemoryLayers` reads (src/urchinloop.js:369-374). -/
structure StoreState where
  urchinCondensed : String
  urchinMemory : Mem
  urchinProfile : Mem
  urchinSkills : List Skill

/-- The result of `loadMemoryLayers`: the stack and active skill names it
returns, the region values it wrote back, and — instrumentation for the
claims — the list of relevance-filter calls it made. -/
structure LoadResult where
  messages : List Message
  activeSkillNames : List String
  memoryAfter : Mem
  profileAfter : Mem
  skillsAfter : List Skill
  filterCalls : List FilterCall

/-- Layer 1 (src/urchinloop.js:378-385): the condensed history as a synthetic
prior exchange. -/
def condensedLayer (condensed : String) : List Message :=
  if condensed.length > 0 then
    [⟨.user, "[Previous conversation history (condensed):\n" ++ condensed ++ "]"⟩,
     ⟨.assistant, "Understood — I remember our previous conversations."⟩]
  else []

/-- Layer 2 (src/urchinloop.js:387-393): the last 30 history turns. -/
def historyLayer (history : List HistEntry) : List Message :=
  (history.drop (history.length - 30)).map
    (fun h => ⟨if h.role = "user" then .user else .assistant, h.text⟩)

/-- Layer 3 (src/urchinloop.js:395-406): the current-turn user message with
page, selection and captured-context annotations, trimmed. -/
def currentTurnBase (opts : LoadOptions) : String :=
  ((if opts.pageContext.url ≠ "" then
      "[Page: " ++ opts.pageContext.title ++ " — " ++ opts.pageContext.url ++ "]\n"
        ++ (if opts.pageContext.selection ≠ "" then
              "[Selected text: " ++ opts.pageContext.selection ++ "]\n" else "")
        ++ (if opts.pageContext.visibleText ≠ "" then
              "[Page content: " ++ jsSlice opts.pageContext.visibleText 3000 ++ "]\n" else "")
    else "")
    ++ (if opts.context.length > 0 then
          "\nCaptured context:\n" ++
            joinSep "\n" (opts.context.map (fun c => "[" ++ c.type ++ "] " ++ c.value)) ++ "\n"
        else "")
    ++ "\n" ++ opts.userInput) |> jsTrim

/-- Layer 4 (src/urchinloop.js:408-416): append up to the 50 most recent
profile keys, persisting the truncated set when over the cap.  Returns the
appended text and the resulting profile region. -/
def profileLayer (profile : Mem) : String × Mem :=
  if profile.length > 0 then
    let profileEntries := profile.drop (profile.length - 50)
    ("\n\n[User profile (permanent):\n" ++
        joinSep "\n" (profileEntries.map (fun kv => "  " ++ kv.1 ++ ": " ++ kv.2)) ++ "]",
      if profile.length > 50 then profileEntries else profile)
  else ("", profile)

/-- Layer 6 (src/urchinloop.js:466-480): inject viable skills (score above 15),
bumping `usageCount` and `lastUsedAt` on each injected skill.  Returns the
appended text, the persisted skill list, and the active skill names. -/
def skillsLayer (skills : List Skill) (now : Nat) : String × List Skill × List String :=
  if skills.length > 0 then
    let viable := skills.filter (fun s => s.score.getD 50 > 15)
    if viable.length > 0 then
      ("\n\n[Learned skills (apply these):\n" ++
          joinSep "\n" (viable.map (fun s =>
            "  • " ++ s.name ++ " [score:" ++ toString (s.score.getD 50) ++ "]: " ++ s.instruction)) ++ "]",
        skills.map (fun s => if s.score.getD 50 > 15 then
          { s with usageCount := some (s.usageCount.getD 0 + 1), lastUsedAt := some now } else s),
        viable.map (·.name))
    else ("", skills, [])
  else ("", skills, [])

/-- `loadMemoryLayers(storage, options)` (src/urchinloop.js:364-483), with
`Date.now()` passed as `now` and the relevance filter as an oracle.  The six
layers build the stack in order; layers 4-6 append to the current-turn user
message, which stays the last entry. -/
def loadMemoryLayers (relFilter : RelFilter) (store : StoreState) (opts : LoadOptions)
    (now : Nat) : LoadResult :=
  let m1 := condensedLayer store.urchinCondensed
  let m2 := historyLayer opts.history
  let cur0 := currentTurnBase opts
  let prof := profileLayer store.urchinProfile
  let memLayer := memoryLayerParts relFilter opts.userInput store.urchinMemory
  let sk := skillsLayer store.urchinSkills now
  { messages := m1 ++ m2 ++ [⟨.user, cur0 ++ prof.1 ++ memLayer.part ++ sk.1⟩],
    activeSkillNames := sk.2.2,
    memoryAfter := evictManual store.urchinMemory,
    profileAfter := prof.2,
    skillsAfter := sk.2.1,
    filterCalls := memLayer.calls }

-- ===== the other regions' cap-enforcement sites =====

/-- Insertion step of the ascending sort below. -/
def insertAsc (x : String) : List String → List String
  | [] => [x]
  | y :: ys => if x < y then x :: y :: ys else y :: insertAsc x ys

/-- `keys.sort()` on distinct keys: ascending lexicographic order (JS sorts by
UTF-16 units; identical to scalar-value order on the BMP text at hand). -/
def sortAsc (l : List String) : List String := l.foldr insertAsc []

/-- The unsorted session-summary keys of a store, in insertion order. -/
def rawSessionKeys (mem : Mem) : List String :=
  (memKeys mem).filter (fun k => jsStartsWith k "session_")

/-- The `sessionKeys` of the session-summary job (src/urchinloop.js:507):
session keys ascending, so the most recent (greatest timestamps) are last. -/
def sessionKeysAsc (mem : Mem) : List String := sortAsc (rawSessionKeys mem)

/-- The write of the session-summary job (src/urchinloop.js:506):
`urchinMemory[session_<now>] = summary.slice(0, MAX_SESSION_CHARS)` with
`MAX_SESSION_CHARS = 1500` (the every-3rd-turn cadence gate is not part of the
cap behaviour and is elided). -/
def sessionWrite (mem : Mem) (now : Nat) (summary : String) : Mem :=
  objSet mem ("session_" ++ toString now) (jsSlice summary 1500)

/-- The session-summary cap enforcement (src/urchinloop.js:507-512): when more
than `MAX_SESSION_SUMMARIES = 20` session keys exist, delete the oldest
(ascending-sorted first) down to 20. -/
def enforceSessionCap (mem : Mem) : Mem :=
  let sessionKeys := sessionKeysAsc mem
  if sessionKeys.length > 20 then
    mem.filter (fun kv => !(sessionKeys.take (sessionKeys.length - 20)).contains kv.1)
  else mem

/-- One session-summary write followed by its cap enforcement
(src/urchinloop.js:506-512). -/
def writeSessionSummary (mem : Mem) (now : Nat) (summary : String) : Mem :=
  enforceSessionCap (sessionWrite mem now summary)

/-- The chat-history persistence of `urchinLoop` (src/urchinloop.js:666-669):
append the new user/assistant pair and keep `updated.slice(-MAX_CHAT_HISTORY)`
with `MAX_CHAT_HISTORY = 200`. -/
def persistChatHistory (chatHistory : List HistEntry) (userInput finalAnswer : String) :
    List HistEntry :=
  let updated := chatHistory ++ [⟨"user", userInput⟩, ⟨"assistant", finalAnswer⟩]
  updated.drop (updated.length - 200)

/-- A cached embedding vector; exact rationals stand in for JS numbers (the
eviction below only inspects keys). -/
abbrev EmbVec := List ℚ

/-- The `urchinEmbeddingCache` region: key-to-vector object in insertion
order. -/
abbrev EmbCache := List (String × EmbVec)

/-- The embedding-cache eviction run after caching new vectors
(src/urchinloop.js:167-173 and 205-210): when more than 300 keys exist, delete
the oldest (earliest-inserted) down to 300. -/
def evictEmbeddingCache (cache : EmbCache) : EmbCache :=
  let keys := cache.map Prod.fst
  if keys.length > 300 then
    cache.filter (fun kv => !(keys.take (keys.length - 300)).contains kv.1)
  else cache

/-- The profile merge of the profile-extraction job (src/urchinloop.js:534):
`{ ...urchinProfile, ...newProfile }` — existing keys keep their position with
overwritten values, new keys are appended.  No cap is applied here. -/
def mergeProfile (profile newProfile : Mem) : Mem :=
  newProfile.foldl (fun acc kv => objSet acc kv.1 kv.2) profile

/-- A profile region holding exactly 50 keys (distinct digit-free names), for
the uncapped-merge part of the C1 amendment. -/
def profile50ex : Mem :=
  (List.range 50).map (fun i => (String.mk (List.replicate (i + 1) 'p'), "v"))

-- ===== infix machinery =====

/-- `p` occurs in `s` as a contiguous substring. -/
def strInfix (p s : String) : Prop := List.IsInfix p.data s.data

instance (p s : String) : Decidable (strInfix p s) :=
  inferInstanceAs (Decidable (List.IsInfix p.data s.data))

/-- Distinct digit-free keys for the concrete stores below. -/
def repKey (n : Nat) : String := String.mk (List.replicate n 'k')

/-- A store holding exactly 100 manual entries, for the C1 counterexample. -/
def mem100ex : Mem := (List.range 100).map (fun i => (repKey (i + 1), "v"))

-- ===== JSON-object model for tool results =====

/-- A JSON value inside a tool result: a string field, or any other JSON
value held opaquely (`raw` is its serialization). -/
inductive JVal where
  | str (s : String)
  | raw (j : String)
deriving DecidableEq, Repr

/-- A tool result: a flat JS object as an ordered field list, as consumed by
`JSON.stringify` and the `tr?.error` check. -/
abbrev ToolResult := List (String × JVal)

/-- `JSON.stringify` escaping of one character (the escapes the program's
data can contain; other control characters do not occur). -/
def jsonEscapeChar (c : Char) : String :=
  if c = '"' then "\\\"" else if c = '\\' then "\\\\"
  else if c = '\n' then "\\n" else if c = '\r' then "\\r"
  else if c = '\t' then "\\t" else String.singleton c

/-- `JSON.stringify` of a string. -/
def jsonStr (s : String) : String := "\"" ++ String.join (s.data.map jsonEscapeChar) ++ "\""

/-- Serialization of one field value. -/
def stringifyVal : JVal → String
  | .str s => jsonStr s
  | .raw j => j

/-- `JSON.stringify(result)` for a flat object. -/
def stringifyObj (r : ToolResult) : String :=
  "\x7b" ++ joinSep "," (r.map (fun kv => jsonStr kv.1 ++ ":" ++ stringifyVal kv.2)) ++ "\x7d"

/-- JS truthiness of a field value: the empty string is falsy; an opaque raw
value is falsy exactly for the falsy JSON literals. -/
def truthyVal : JVal → Bool
  | .str s => s ≠ ""
  | .raw j => !(j == "null" || j == "false" || j == "0" || j == "undefined")

/-- Property access `r[key]`. -/
def lookupField : ToolResult → String → Option JVal
  | [], _ => none
  | (k, v) :: rest, key => if k = key then some v else lookupField rest key

/-- Truthiness of an optional-chained property, as in `tr?.error`
(src/urchinloop.js:659). -/
def fieldTruthy (r : ToolResult) (key : String) : Bool :=
  match lookupField r key with
  | some v => truthyVal v
  | none => false

/-- The string content of a field (`contentPreview` fields are strings). -/
def strOfVal : JVal → String
  | .str s => s
  | .raw j => j

-- ===== tool jobs, registry, execution =====

/-- `{name, param}` built from one tool-tag match (src/urchinloop.js:637). -/
structure ToolJob where
  name : String
  param : String
deriving DecidableEq, Repr

/-- What one handler call does: return a result, or throw with a message. -/
inductive ToolOutcome where
  | ret (r : ToolResult)
  | throws (msg : String)

/-- The merged registry `allTools` (src/urchinloop.js:612): tool name to
handler, `none` for an unknown tool.  Handlers absorb the `{storage, settings}`
context argument. -/
abbrev ToolRegistry := String → Option (String → ToolOutcome)

/-- `executeOne` (src/urchinloop.js:640-647): an unknown name yields
`{error: "Unknown tool: <name>"}`; a thrown exception is caught per job and
becomes `{error: message}`. -/
def executeOne (tools : ToolRegistry) (j : ToolJob) : ToolResult :=
  match tools j.name with
  | none => [("error", JVal.str ("Unknown tool: " ++ j.name))]
  | some h =>
    match h j.param with
    | .ret r => r
    | .throws m => [("error", JVal.str m)]

/-- `summarizeToolResult(toolName, result)` (src/urchinloop.js:67-74): small
serializations pass through; an oversized FETCH_URL result with a truthy
`contentPreview` is re-serialized with the preview truncated; any other
oversized result has its serialization truncated. -/
def summarizeToolResult (toolName : String) (result : ToolResult) : String :=
  let raw := stringifyObj result
  if raw.length ≤ 3000 then raw
  else if toolName = "FETCH_URL" && fieldTruthy result "contentPreview" then
    stringifyObj (result.map (fun kv => if kv.1 = "contentPreview" then
      (kv.1, JVal.str (jsSlice (strOfVal kv.2) 2500 ++ "…[truncated]")) else kv))
  else jsSlice raw 2500 ++ "…[truncated]"

/-- The result line `[Tool result for <name>]: <summarized>`
(src/urchinloop.js:658). -/
def renderLine (name : String) (tr : ToolResult) : String :=
  "[Tool result for " ++ name ++ "]: " ++ summarizeToolResult name tr

/-- The retry-hint line appended after a truthy error result
(src/urchinloop.js:659). -/
def hintText : String := "\n[HINT: Tool failed. Try a different approach.]\n"

/-- The text one job contributes to `combinedResults`
(src/urchinloop.js:654-660). -/
def renderChunk (name : String) (tr : ToolResult) : String :=
  renderLine name tr ++ "\n" ++ (if fieldTruthy tr "error" then hintText else "")

/-- String accumulation with `+=` over a list of pieces. -/
def concatAll : List String → String
  | [] => ""
  | s :: rest => s ++ concatAll rest

/-- The `combinedResults` accumulation loop (src/urchinloop.js:653-660),
before the final trim at the push site. -/
def renderResults (jobs : List ToolJob) (results : List ToolResult) : String :=
  concatAll ((jobs.zip results).map (fun jt => renderChunk jt.1.name jt.2))

-- ===== completion-order schedule model for Promise.all =====

/-- The handlers running concurrently under `Promise.all`
(src/urchinloop.js:649-651): `order` is the completion order of the jobs (a
permutation of their indices), and each completion carries its job's index. -/
def runSchedule (tools : ToolRegistry) (jobs : List ToolJob) (order : List Nat) :
    List (Nat × ToolResult) :=
  order.map (fun i => (i, executeOne tools (jobs.getD i ⟨"", ""⟩)))

/-- `Promise.all`'s positional collection: slot `i` of the output is the
completion tagged `i`, regardless of when it finished. -/
def collectByIndex (n : Nat) (pairs : List (Nat × ToolResult)) : List ToolResult :=
  (List.range n).map (fun i => ((pairs.find? (fun p => p.1 == i)).map Prod.snd).getD [])

-- ===== tag parsing =====

/-- The regex word-character class (ASCII letters, digits, underscore). -/
def isWordChar (c : Char) : Bool := c.isAlphanum || c = '_'

/-- The lazy optional-parameter tail of TOOL_REGEX (src/urchinloop.js:16):
find the earliest close marker preceded by a nonempty parameter; `acc` holds
the parameter read so far, reversed. -/
def findToolEnd (acc : List Char) : List Char → Option (List Char × List Char)
  | [] => none
  | c :: rest =>
    if acc ≠ [] ∧ c = '>' ∧ rest.head? = some '>' then some (acc.reverse, rest.tail)
    else findToolEnd (c :: acc) rest

/-- The scan of `cleaned.matchAll(TOOL_REGEX)` (src/urchinloop.js:16, 631): at
each position try to match the open marker, then a nonempty word-character
name, then either an immediate close (no parameter) or a colon and the lazily
closed parameter; on failure advance one character, on success resume after
the match.  `fuel` starts at the text length; every recursive call consumes at
least one character, so it never runs out. -/
def extractToolsAux : Nat → List Char → List (String × Option String)
  | 0, _ => []
  | _, [] => []
  | fuel + 1, c :: rest =>
    if "<<TOOL:".data.isPrefixOf (c :: rest) then
      let after := (c :: rest).drop 7
      let w := after.takeWhile isWordChar
      let rest2 := after.dropWhile isWordChar
      if w = [] then extractToolsAux fuel rest
      else
        match rest2 with
        | '>' :: '>' :: rest3 => (⟨w⟩, none) :: extractToolsAux fuel rest3
        | ':' :: rest3 =>
          match findToolEnd [] rest3 with
          | some (param, rest4) => (⟨w⟩, some ⟨param⟩) :: extractToolsAux fuel rest4
          | none => extractToolsAux fuel rest
        | _ => extractToolsAux fuel rest
    else extractToolsAux fuel rest

/-- All TOOL_REGEX matches of a cleaned response, in text order. -/
def extractToolMatches (s : String) : List (String × Option String) :=
  extractToolsAux s.data.length s.data

/-- `matches.map(m => ({name: m[1], param: (m[2] || "").trim()}))`
(src/urchinloop.js:637). -/
def toolJobsOf (s : String) : List ToolJob :=
  (extractToolMatches s).map (fun m => ⟨m.1, jsTrim (m.2.getD "")⟩)

/-- Index of the first occurrence of `pat`, counting from the given start. -/
def findSubAux (pat : List Char) : List Char → Nat → Option Nat
  | [], i => if pat.isPrefixOf [] then some i else none
  | c :: rest, i => if pat.isPrefixOf (c :: rest) then some i else findSubAux pat rest (i + 1)

/-- `raw.replace(THINK_REGEX, "")` (src/urchinloop.js:18, 629): remove the
first think block — open marker, nonempty lazily-matched content, close
marker.  When no complete block exists the text is unchanged (a later open
marker cannot match either, since any close lies even further left of it). -/
def stripThink (s : String) : String :=
  match findSubAux "<<THINK>>".data s.data 0 with
  | none => s
  | some i =>
    match findSubAux "<</THINK>>".data (s.data.drop (i + 10)) 0 with
    | none => s
    | some jrel => ⟨s.data.take i ++ s.data.drop (i + 10 + jrel + 10)⟩

/-- `raw.replace(THINK_REGEX, "").trim()` (src/urchinloop.js:629). -/
def cleanResponse (raw : String) : String := jsTrim (stripThink raw)

-- ===== the reasoning loop =====

/-- The iteration loop of `urchinLoop` (src/urchinloop.js:621-663): call the
model (failures propagate as `Except.error`); with no tool tag the cleaned
text is the final answer; otherwise push the assistant text, execute the jobs
(the single-job special case at lines 649-651 produces the same list as the
uniform map, `[j].map f = [f j]`), push the combined rendered results as one
user entry, and continue.  Returns `none` for the answer when the step budget
is exhausted.  The `log`, `onStep` and `onThink` diagnostics are not
modelled. -/
def loopSteps (llm : List Message → Except String String) (tools : ToolRegistry) :
    Nat → List Message → Except String (Option String × List Message)
  | 0, msgs => .ok (none, msgs)
  | n + 1, msgs =>
    match llm msgs with
    | .error e => .error e
    | .ok raw =>
      let cleaned := cleanResponse raw
      let jobs := toolJobsOf cleaned
      if jobs = [] then .ok (some cleaned, msgs)
      else
        let toolResults := jobs.map (executeOne tools)
        let combined := renderResults jobs toolResults
        loopSteps llm tools n
          ((msgs ++ [⟨.assistant, cleaned⟩]) ++ [⟨.user, jsTrim combined⟩])

/-- The request-result fields the claims concern: the answer and the final
stack (src/urchinloop.js:679-683). -/
structure LoopOutcome where
  answer : String
  messages : List Message
deriving Repr

/-- The core of `urchinLoop` (src/urchinloop.js:621-663 and 679-683): run the
loop on an already-composed, already-trimmed stack and return
`answer: finalAnswer || "No response."`.  Memory composition is modelled
separately by `loadMemoryLayers`; chat-history persistence and post-response
scheduling are not load-bearing for the claims. -/
def urchinLoopModel (llm : List Message → Except String String) (tools : ToolRegistry)
    (maxSteps : Nat) (messages0 : List Message) : Except String LoopOutcome :=
  match loopSteps llm tools maxSteps messages0 with
  | .error e => .error e
  | .ok (fa, msgs) =>
    let answer := fa.getD ""
    .ok ⟨if answer = "" then "No response." else answer, msgs⟩

/-- A registry whose tool `T` throws with an empty message, for the C4
counterexample. -/
def throwingRegistry : ToolRegistry :=
  fun nm => if nm = "T" then some (fun _ => .throws "") else none

/- ════════════════════════════════════════════════════════════════════════
   PART II — THEOREMS
   ════════════════════════════════════════════════════════════════════════ -/

/- ────────────────────────────────────────────────────────────────────────
   Trimming (claims C7, C10)
   ──────────────────────────────────────────────────────────────────────── -/

theorem trimGo_length (budget : Nat) :
    ∀ (total k : Nat) (l : List Message), (trimGo budget total k l).length = l.length := by
  intro total k
  induction k generalizing total with
  | zero => intro l; rfl
  | succ k ih =>
    intro l
    cases l with
    | nil => rfl
    | cons m rest =>
      simp only [trimGo]
      split
      · simp [ih]
      · rfl

theorem trimGo_drop (budget : Nat) :
    ∀ (total k : Nat) (l : List Message), (trimGo budget total k l).drop k = l.drop k := by
  intro total k
  induction k generalizing total with
  | zero => intro l; rfl
  | succ k ih =>
    intro l
    cases l with
    | nil => rfl
    | cons m rest =>
      simp only [trimGo]
      split
      · simpa using ih _ rest
      · rfl

theorem trimGo_getElem? (budget : Nat) :
    ∀ (total k : Nat) (l : List Message) (i : Nat) (m' : Message),
      (trimGo budget total k l)[i]? = some m' →
      ∃ m, l[i]? = some m ∧ m'.role = m.role ∧
        (m' = m ∨ m'.content = trimContent m.content) := by
  intro total k
  induction k generalizing total with
  | zero =>
    intro l i m' h
    exact ⟨m', h, rfl, Or.inl rfl⟩
  | succ k ih =>
    intro l i m' h
    cases l with
    | nil => simp [trimGo] at h
    | cons m rest =>
      rw [trimGo] at h
      split at h
      · cases i with
        | zero =>
          simp only [List.getElem?_cons_zero, Option.some.injEq] at h
          exact ⟨m, by simp, by rw [← h], Or.inr (by rw [← h])⟩
        | succ i =>
          simp only [List.getElem?_cons_succ] at h ⊢
          exact ih _ rest i m' h
      · exact ⟨m', h, rfl, Or.inl rfl⟩

/-- C7: for every message stack and every budget, `trimMessagesToBudget`
(1) drops no entry (the output has the same length), (2) leaves the last two
entries verbatim (the suffix from index `length - 2` is unchanged — in
particular the most recent turn and its immediately preceding entry survive
any budget, even one smaller than the current-turn message alone), and
(3) only ever rewrites an entry's content to its 200-character prefix plus
the `…[trimmed]` marker, keeping its role. -/
theorem trim_preserves_last_two (msgs : List Message) (budget : Nat) :
    (trimMessagesToBudget msgs budget).length = msgs.length ∧
    (trimMessagesToBudget msgs budget).drop (msgs.length - 2) = msgs.drop (msgs.length - 2) ∧
    (∀ (i : Nat) (m' : Message), (trimMessagesToBudget msgs budget)[i]? = some m' →
      ∃ m, msgs[i]? = some m ∧ m'.role = m.role ∧
        (m' = m ∨ m'.content = trimContent m.content)) :=
  ⟨trimGo_length budget _ _ msgs, trimGo_drop budget _ _ msgs,
    fun i m' h => trimGo_getElem? budget _ _ msgs i m' h⟩

/-- Witness for C7 at a concrete stack whose budget (5) is smaller than the
current-turn message alone: the last two entries survive untouched and the
first entry is rewritten to its trimmed form. -/
theorem trim_preserves_last_two_witness :
    (trimMessagesToBudget
        [⟨.user, "oldest entry content"⟩, ⟨.assistant, "penultimate"⟩,
         ⟨.user, "current turn message longer than the budget"⟩] 5).drop 1 =
      [⟨.assistant, "penultimate"⟩, ⟨.user, "current turn message longer than the budget"⟩] ∧
    (∃ m, ([⟨Role.user, "oldest entry content"⟩, ⟨Role.assistant, "penultimate"⟩,
         ⟨Role.user, "current turn message longer than the budget"⟩] : List Message)[0]? = some m ∧
      (⟨Role.user, "oldest entry content…[trimmed]"⟩ : Message).role = m.role ∧
      ((⟨Role.user, "oldest entry content…[trimmed]"⟩ : Message) = m ∨
        (⟨Role.user, "oldest entry content…[trimmed]"⟩ : Message).content = trimContent m.content)) := by
  refine ⟨?_, ?_⟩
  · have h := (trim_preserves_last_two
      [⟨.user, "oldest entry content"⟩, ⟨.assistant, "penultimate"⟩,
       ⟨.user, "current turn message longer than the budget"⟩] 5).2.1
    simpa using h
  · exact (trim_preserves_last_two
      [⟨.user, "oldest entry content"⟩, ⟨.assistant, "penultimate"⟩,
       ⟨.user, "current turn message longer than the budget"⟩] 5).2.2 0
      ⟨.user, "oldest entry content…[trimmed]"⟩ (by decide)

/-- C10: trimming can overshoot the budget and even grow the stack:
(1) replacing an under-200-character content adds exactly the 10-character
`…[trimmed]` marker, so it is strictly longer; and (2) on the concrete
3-entry stack `["a","b","c"]` with budget `0`, the trimmed stack's total
(13) still exceeds the budget and exceeds the original total (3), because
the loop stops after processing every entry but the last two. -/
theorem trim_can_exceed_budget :
    (∀ s : String, s.length < 200 → (trimContent s).length = s.length + 10) ∧
    msgsTotal (trimMessagesToBudget [⟨.user, "a"⟩, ⟨.user, "b"⟩, ⟨.user, "c"⟩] 0) = 13 ∧
    msgsTotal [(⟨.user, "a"⟩ : Message), ⟨.user, "b"⟩, ⟨.user, "c"⟩] = 3 := by
  refine ⟨?_, by decide, by decide⟩
  intro s h
  have htake : s.data.take 200 = s.data := List.take_of_length_le (Nat.le_of_lt h)
  show (jsSlice s 200 ++ "…[trimmed]").length = s.length + 10
  have : jsSlice s 200 = s := by
    simp only [jsSlice, htake]
  rw [this]
  have h10 : ("…[trimmed]" : String).length = 10 := by decide
  simp only [String.length_append, h10]

/-- Witness for C10's universally quantified part at a concrete short string. -/
theorem trim_can_exceed_budget_witness :
    (trimContent "abc").length = ("abc" : String).length + 10 :=
  trim_can_exceed_budget.1 "abc" (by decide)

/- ────────────────────────────────────────────────────────────────────────
   Cosine similarity (claim C9)
   ──────────────────────────────────────────────────────────────────────── -/

theorem magSq_nonneg (a : List ℝ) : 0 ≤ magSq a := by
  refine List.sum_nonneg ?_
  intro x hx
  simp only [List.mem_map] at hx
  obtain ⟨y, _, rfl⟩ := hx
  exact mul_self_nonneg y

theorem magSq_eq_sum_range (a : List ℝ) :
    magSq a = ∑ i ∈ Finset.range a.length, (a.getD i 0) ^ 2 := by
  induction a with
  | nil => simp [magSq]
  | cons x xs ih =>
    simp only [magSq, List.map_cons, List.sum_cons, List.length_cons] at *
    rw [Finset.sum_range_succ', ih]
    simp [sq, add_comm]

theorem dotList_eq_sum_range (a : List ℝ) :
    ∀ b : List ℝ, a.length = b.length →
      dotList a b = ∑ i ∈ Finset.range a.length, a.getD i 0 * b.getD i 0 := by
  induction a with
  | nil => intro b _; simp [dotList]
  | cons x xs ih =>
    intro b hb
    cases b with
    | nil => simp at hb
    | cons y ys =>
      simp only [List.length_cons, Nat.succ.injEq] at hb
      simp only [dotList, List.zipWith_cons_cons, List.sum_cons, List.length_cons] at *
      rw [Finset.sum_range_succ', ih ys hb]
      simp [add_comm]

theorem dotList_sq_le (a b : List ℝ) (h : a.length = b.length) :
    (dotList a b) ^ 2 ≤ magSq a * magSq b := by
  rw [dotList_eq_sum_range a b h, magSq_eq_sum_range, magSq_eq_sum_range, ← h]
  exact Finset.sum_mul_sq_le_sq_mul_sq _ _ _

/-- C9: the function cosineSimilarity always returns a value in `[-1, 1]` (being a
total function, it never fails), and returns exactly `0` when the vectors
have mismatched lengths, when either argument is absent, or when either
vector has zero magnitude. -/
theorem cosineSimilarity_contract (oa ob : Option (List ℝ)) :
    (-1 ≤ cosineSimilarity oa ob ∧ cosineSimilarity oa ob ≤ 1) ∧
    (∀ a b, oa = some a → ob = some b →
      (a.length ≠ b.length ∨ magSq a = 0 ∨ magSq b = 0) → cosineSimilarity oa ob = 0) ∧
    ((oa = none ∨ ob = none) → cosineSimilarity oa ob = 0) := by
  refine ⟨?_, ?_, ?_⟩
  · match oa, ob with
    | none, none => norm_num [cosineSimilarity]
    | none, some b => norm_num [cosineSimilarity]
    | some a, none => norm_num [cosineSimilarity]
    | some a, some b =>
      by_cases hlen : a.length ≠ b.length
      · norm_num [cosineSimilarity, hlen]
      · push_neg at hlen
        by_cases hd : Real.sqrt (magSq a) * Real.sqrt (magSq b) = 0
        · norm_num [cosineSimilarity, hlen, hd]
        · have hnn : 0 ≤ Real.sqrt (magSq a) * Real.sqrt (magSq b) :=
            mul_nonneg (Real.sqrt_nonneg _) (Real.sqrt_nonneg _)
          have hpos : 0 < Real.sqrt (magSq a) * Real.sqrt (magSq b) :=
            lt_of_le_of_ne hnn (Ne.symm hd)
          have hcs := dotList_sq_le a b hlen
          have hdenomsq : (Real.sqrt (magSq a) * Real.sqrt (magSq b)) ^ 2 = magSq a * magSq b := by
            rw [mul_pow, Real.sq_sqrt (magSq_nonneg a), Real.sq_sqrt (magSq_nonneg b)]
          have hsq : (dotList a b) ^ 2 ≤ (Real.sqrt (magSq a) * Real.sqrt (magSq b)) ^ 2 := by
            rw [hdenomsq]; exact hcs
          have hval : cosineSimilarity (some a) (some b)
              = dotList a b / (Real.sqrt (magSq a) * Real.sqrt (magSq b)) := by
            simp [cosineSimilarity, hlen, hd]
          rw [hval]
          constructor
          · rw [le_div_iff₀ hpos]
            nlinarith [hsq, hpos]
          · rw [div_le_one hpos]
            nlinarith [hsq, hpos]
  · rintro a b rfl rfl hdeg
    rcases hdeg with hlen | hza | hzb
    · simp [cosineSimilarity, hlen]
    · simp [cosineSimilarity, hza]
    · simp [cosineSimilarity, hzb]
  · rintro (rfl | rfl)
    · simp [cosineSimilarity]
    · match oa with
      | none => simp [cosineSimilarity]
      | some a => simp [cosineSimilarity]

/-- Witness for C9 at concrete inputs: the bound at `[1,2]`,`[2,1]`, the
mismatched-length case, the absent-argument case, and the zero-magnitude
case all discharge the theorem's hypotheses. -/
theorem cosineSimilarity_contract_witness :
    (-1 ≤ cosineSimilarity (some [1, 2]) (some [2, 1]) ∧
      cosineSimilarity (some [1, 2]) (some [2, 1]) ≤ 1) ∧
    cosineSimilarity (some [1]) (some [1, 2]) = 0 ∧
    cosineSimilarity none (some [1]) = 0 ∧
    cosineSimilarity (some [0, 0]) (some [3, 4]) = 0 :=
  ⟨(cosineSimilarity_contract _ _).1,
   (cosineSimilarity_contract _ _).2.1 [1] [1, 2] rfl rfl (Or.inl (by simp)),
   (cosineSimilarity_contract _ _).2.2 (Or.inl rfl),
   (cosineSimilarity_contract _ _).2.1 [0, 0] [3, 4] rfl rfl
     (Or.inr (Or.inl (by norm_num [magSq])))⟩

/- ────────────────────────────────────────────────────────────────────────
   Skill-score update (claim C6)
   ──────────────────────────────────────────────────────────────────────── -/

/-- C6: for every skill (old score `old = score ?? 50`) and every
numeric evaluation value `eval`, the skill-evaluation job sets the score to
exactly `round(old*0.6 + clamp(eval,0,100)*0.4)` — the code's update equals
the spec's formula — and in particular `old = 50`, `eval = 90` yields `66`. -/
theorem evalSkillUpdate_score (s : Skill) (newScore : ℚ) (now : Nat) :
    (evalSkillUpdate s newScore now).score
        = some (specSkillScore ((s.score.getD 50 : ℤ) : ℚ) newScore) ∧
    specSkillScore 50 90 = 66 := by
  constructor
  · simp [evalSkillUpdate, specSkillScore, clampScore]
  · norm_num [specSkillScore, jsRound]

theorem strInfix_refl (s : String) : strInfix s s := ⟨[], [], by simp⟩

theorem strInfix_append_right {p t : String} (h : strInfix p t) (w : String) :
    strInfix p (t ++ w) := by
  obtain ⟨s1, s2, hst⟩ := h
  exact ⟨s1, s2 ++ w.data, by rw [String.data_append, ← hst]; simp⟩

theorem strInfix_append_left {p t : String} (h : strInfix p t) (u : String) :
    strInfix p (u ++ t) := by
  obtain ⟨s1, s2, hst⟩ := h
  exact ⟨u.data ++ s1, s2, by rw [String.data_append, ← hst]; simp⟩

theorem strInfix_joinSep (x sep : String) :
    ∀ l : List String, x ∈ l → strInfix x (joinSep sep l) := by
  intro l
  induction l with
  | nil => intro h; cases h
  | cons y rest ih =>
    intro hx
    cases rest with
    | nil =>
      have : x = y := by simpa using hx
      subst this
      exact strInfix_refl x
    | cons z rest' =>
      rcases List.mem_cons.mp hx with rfl | hmem
      · show strInfix x (x ++ sep ++ joinSep sep (z :: rest'))
        exact strInfix_append_right (strInfix_append_right (strInfix_refl x) sep) _
      · show strInfix x (y ++ sep ++ joinSep sep (z :: rest'))
        exact strInfix_append_left (ih hmem) _

-- ===== sortDesc lemmas =====

theorem mem_insertDesc (x a : String) : ∀ l : List String, a ∈ insertDesc x l ↔ a = x ∨ a ∈ l := by
  intro l
  induction l with
  | nil => simp [insertDesc]
  | cons y ys ih =>
    simp only [insertDesc]
    split
    · simp
    · simp only [List.mem_cons, ih]
      tauto

theorem mem_sortDesc (a : String) : ∀ l : List String, a ∈ sortDesc l ↔ a ∈ l := by
  intro l
  induction l with
  | nil => simp [sortDesc]
  | cons y ys ih =>
    show a ∈ insertDesc y (sortDesc ys) ↔ _
    rw [mem_insertDesc]
    simp only [List.mem_cons]
    rw [ih]

theorem head?_insertDesc (x : String) : ∀ l : List String,
    (insertDesc x l).head? = some (match l.head? with | none => x | some y => max x y) := by
  intro l
  cases l with
  | nil => rfl
  | cons y ys =>
    simp only [insertDesc]
    split
    · rename_i h
      simp [max_eq_left (le_of_lt h)]
    · rename_i h
      have : x ≤ y := le_of_not_lt h
      simp [max_eq_right this]

theorem sortDesc_head_max (x : String) : ∀ l : List String, x ∈ l →
    ∃ m, (sortDesc l).head? = some m ∧ x ≤ m := by
  intro l
  induction l with
  | nil => intro h; cases h
  | cons y ys ih =>
    intro hx
    show ∃ m, (insertDesc y (sortDesc ys)).head? = some m ∧ x ≤ m
    rw [head?_insertDesc]
    rcases List.mem_cons.mp hx with rfl | hmem
    · refine ⟨_, rfl, ?_⟩
      cases (sortDesc ys).head? with
      | none => simp
      | some z => exact le_max_left _ _
    · obtain ⟨m, hm, hxm⟩ := ih hmem
      rw [hm]
      exact ⟨max y m, rfl, le_trans hxm (le_max_right _ _)⟩

-- ===== lookup lemmas =====

theorem lookupMem_isSome_of_mem (k : String) :
    ∀ mem : Mem, k ∈ memKeys mem → ∃ v, lookupMem mem k = some v := by
  intro mem
  induction mem with
  | nil => intro h; simp [memKeys] at h
  | cons kv rest ih =>
    intro hk
    by_cases he : kv.1 = k
    · exact ⟨kv.2, by cases kv; simp_all [lookupMem]⟩
    · have : k ∈ memKeys rest := by
        simp only [memKeys, List.map_cons, List.mem_cons] at hk
        tauto
      obtain ⟨v, hv⟩ := ih this
      exact ⟨v, by cases kv; simp_all [lookupMem]⟩

theorem lookupMem_filter (k : String) (p : String × String → Bool) :
    ∀ mem : Mem, (∀ kv ∈ mem, kv.1 = k → p kv = true) →
      lookupMem (mem.filter p) k = lookupMem mem k := by
  intro mem
  induction mem with
  | nil => intro _; rfl
  | cons kv rest ih =>
    intro hp
    by_cases he : kv.1 = k
    · have : p kv = true := hp kv (by simp) he
      cases kv
      simp_all [lookupMem, List.filter_cons, this]
    · cases kv with
      | mk k' v =>
        by_cases hpkv : p (k', v) = true
        · simp only [List.filter_cons, hpkv, if_true]
          simp only [lookupMem, he, if_false]
          exact ih (fun kv hkv => hp kv (List.mem_cons_of_mem _ hkv))
        · rw [List.filter_cons, if_neg hpkv]
          have hr : lookupMem ((k', v) :: rest) k = lookupMem rest k := by
            simp [lookupMem, he]
          rw [hr]
          exact ih (fun kv hkv hk1 => hp kv (List.mem_cons_of_mem _ hkv) hk1)

-- ===== C1 pieces =====

theorem map_fst_filter_contains (rem : List String) (mem : Mem) :
    (mem.filter (fun kv => !rem.contains kv.1)).map Prod.fst
      = (mem.map Prod.fst).filter (fun k => !rem.contains k) := by
  induction mem with
  | nil => rfl
  | cons kv rest ih =>
    rw [List.filter_cons, List.map_cons, List.filter_cons]
    cases h : rem.contains kv.1 with
    | true =>
      simp only [h, Bool.not_true, Bool.false_eq_true, if_false]
      exact ih
    | false =>
      simp only [h, Bool.not_false, if_true, List.map_cons]
      rw [ih]

theorem filter_not_contains_take (n : Nat) :
    ∀ l : List String, l.Nodup → l.filter (fun x => !(l.take n).contains x) = l.drop n := by
  induction n with
  | zero =>
    intro l _
    simp
  | succ n ih =>
    intro l hnd
    cases l with
    | nil => rfl
    | cons a t =>
      have hna : a ∉ t := (List.nodup_cons.mp hnd).1
      have hndt : t.Nodup := (List.nodup_cons.mp hnd).2
      simp only [List.take_succ_cons, List.drop_succ_cons]
      rw [List.filter_cons]
      have hca : ((a :: t.take n).contains a) = true := by simp
      simp only [hca, Bool.not_true, Bool.false_eq_true, if_false]
      have hcongr : t.filter (fun x => !(a :: t.take n).contains x)
          = t.filter (fun x => !(t.take n).contains x) := by
        apply List.filter_congr
        intro x hx
        have hxa : x ≠ a := fun h => hna (h ▸ hx)
        simp [List.contains_cons, hxa]
      rw [hcongr, ih t hndt]

theorem manualKeysOf_evictManual (mem : Mem) (hnd : (memKeys mem).Nodup) :
    manualKeysOf (evictManual mem)
      = (manualKeysOf mem).drop ((manualKeysOf mem).length - 100) := by
  by_cases h : (manualKeysOf mem).length > 100
  · have hmk : (manualKeysOf mem).Nodup := hnd.filter _
    simp only [evictManual, if_pos h]
    show ((mem.filter _).map Prod.fst).filter isManualKey = _
    rw [map_fst_filter_contains]
    rw [List.filter_comm]
    show (manualKeysOf mem).filter _ = _
    exact filter_not_contains_take _ _ hmk
  · simp only [evictManual, if_neg h]
    have : (manualKeysOf mem).length - 100 = 0 := by omega
    rw [this, List.drop_zero]

/-- C1, counterexample: the claim says the manual-entry cap (100) is enforced
at write time, never violated at rest; but a REMEMBER-tool write onto a store
already holding 100 manual entries leaves 101 — REMEMBER
(src/urchinloop.js:275-287) performs no eviction. -/
theorem remember_write_exceeds_manual_cap :
    (manualKeysOf mem100ex).length = 100 ∧
    (manualKeysOf (rememberWrite mem100ex "favorite_color" "blue")).length = 101 := by
  constructor
  · decide
  · decide

-- ===== more infix helpers =====

theorem strInfix_empty (s : String) : strInfix "" s := ⟨[], s.data, by simp⟩

theorem head?_eq_some_mem {l : List String} {a : String} (h : l.head? = some a) : a ∈ l := by
  cases l with
  | nil => cases h
  | cons x xs =>
    simp only [List.head?_cons, Option.some.injEq] at h
    simp [h]

theorem lookup_evict_of_not_manual (mem : Mem) (k : String)
    (hk : jsStartsWith k "session_" = true) :
    lookupMem (evictManual mem) k = lookupMem mem k := by
  simp only [evictManual]
  split
  · apply lookupMem_filter
    intro kv _ hk1
    have hsub := List.take_subset ((manualKeysOf mem).length - 100) (manualKeysOf mem)
    have hnm : kv.1 ∉ (manualKeysOf mem).take ((manualKeysOf mem).length - 100) := by
      intro hmem
      have hmk : kv.1 ∈ manualKeysOf mem := hsub hmem
      have hman : isManualKey kv.1 = true := List.of_mem_filter hmk
      rw [hk1] at hman
      simp only [isManualKey, hk, Bool.not_true, Bool.false_and] at hman
      cases hman
    simpa using hnm
  · rfl

theorem mem_jsSetAdd_self (l : List String) (x : String) : x ∈ jsSetAdd l x := by
  unfold jsSetAdd
  split
  · rename_i h
    simpa using h
  · simp


theorem memoryLayerParts_mostRecent (relFilter : RelFilter) (userInput : String) (mem : Mem)
    (k0 : String) (h0 : (sessionKeysOf mem).head? = some k0) :
    strInfix ((lookupMem (evictManual mem) k0).getD "")
      (memoryLayerParts relFilter userInput mem).part := by
  simp only [memoryLayerParts]
  split
  · -- unfiltered branch: sessions are injected via `take 10`, most recent first
    cases hsk : sessionKeysOf mem with
    | nil => rw [hsk] at h0; cases h0
    | cons khd rest =>
      rw [hsk] at h0
      simp only [List.head?_cons, Option.some.injEq] at h0
      subst h0
      dsimp only
      rw [if_pos (by simp : ((khd :: rest) : List String).length > 0)]
      have hval : (lookupMem (evictManual mem) khd).getD ""
          ∈ (List.take 10 (khd :: rest)).map (fun k => (lookupMem (evictManual mem) k).getD "") := by
        rw [show (10:Nat) = 9 + 1 from rfl, List.take_succ_cons, List.map_cons]
        exact List.mem_cons_self _ _
      have h1 := strInfix_joinSep _ "\n---\n" _ hval
      exact strInfix_append_right
        (strInfix_append_right (strInfix_append_left h1 "\n\n[Past session summaries:\n") "]") _
  · -- filtered branch: the most recent session key is force-added to the set
    rw [h0]
    dsimp only
    cases hv : lookupMem (evictManual mem) k0 with
    | none => exact strInfix_empty _
    | some v =>
      by_cases hve : v = ""
      · simp only [Option.getD_some, hve]
        exact strInfix_empty _
      · simp only [Option.getD_some]
        have hk0 := mem_jsSetAdd_self
          (jsSetOf (List.map (fun r : RelCandidate => r.key)
            (List.filter (fun r => jsStartsWith r.key "session_")
              (relFilter userInput (candidateEntries mem) 10)))) k0
        have hvmem : v ∈ ((jsSetAdd (jsSetOf (List.map (fun r : RelCandidate => r.key)
            (List.filter (fun r => jsStartsWith r.key "session_")
              (relFilter userInput (candidateEntries mem) 10)))) k0).filterMap
                (fun k => lookupMem (evictManual mem) k)).filter (fun v => v ≠ "") := by
          exact List.mem_filter.mpr ⟨List.mem_filterMap.mpr ⟨k0, hk0, hv⟩, by simp [hve]⟩
        have h1 := strInfix_joinSep _ "\n---\n" _ hvmem
        have hpos : (jsSetAdd (jsSetOf (List.map (fun r : RelCandidate => r.key)
            (List.filter (fun r => jsStartsWith r.key "session_")
              (relFilter userInput (candidateEntries mem) 10)))) k0).length > 0 :=
          List.length_pos.mpr (List.ne_nil_of_mem hk0)
        rw [if_pos hpos]
        exact strInfix_append_right
          (strInfix_append_right (strInfix_append_left h1 _) "]") _

-- ===== core lemmas for C3 =====

theorem sessionKeys_le_six (mem : Mem) (h6 : (candidateEntries mem).length ≤ 6) :
    (sessionKeysOf mem).length ≤ 6 := by
  have h1 : ((sessionKeysOf mem).take 20).length ≤ 6 := by
    have := List.length_append
      (((sessionKeysOf mem).take 20).map (fun k => (k, (lookupMem (evictManual mem) k).getD "")))
      ((manualKeysOf (evictManual mem)).map (fun k => (k, (lookupMem (evictManual mem) k).getD "")))
    simp only [candidateEntries] at h6
    rw [this] at h6
    simp only [List.length_map] at h6
    omega
  rw [List.length_take] at h1
  omega

theorem memoryLayerParts_small (relFilter : RelFilter) (userInput : String) (mem : Mem)
    (h6 : (candidateEntries mem).length ≤ 6) :
    (memoryLayerParts relFilter userInput mem).calls = [] ∧
    ∀ kv ∈ candidateEntries mem, strInfix kv.2 (memoryLayerParts relFilter userInput mem).part := by
  have hslen := sessionKeys_le_six mem h6
  have htake20 : (sessionKeysOf mem).take 20 = sessionKeysOf mem :=
    List.take_of_length_le (by omega)
  have htake10 : (sessionKeysOf mem).take 10 = sessionKeysOf mem :=
    List.take_of_length_le (by omega)
  simp only [memoryLayerParts]
  rw [if_pos h6]
  refine ⟨rfl, ?_⟩
  intro kv hkv
  simp only [candidateEntries, htake20, List.mem_append, List.mem_map] at hkv
  dsimp only
  rcases hkv with ⟨k, hk, rfl⟩ | ⟨k, hk, rfl⟩
  · -- a session entry: its value is injected into the session block
    have hpos : (sessionKeysOf mem).length > 0 :=
      List.length_pos.mpr (List.ne_nil_of_mem hk)
    rw [if_pos hpos]
    have hval : (lookupMem (evictManual mem) k).getD ""
        ∈ ((sessionKeysOf mem).take 10).map (fun k => (lookupMem (evictManual mem) k).getD "") := by
      rw [htake10]
      exact List.mem_map.mpr ⟨k, hk, rfl⟩
    have h1 := strInfix_joinSep _ "\n---\n" _ hval
    exact strInfix_append_right
      (strInfix_append_right (strInfix_append_left h1 "\n\n[Past session summaries:\n") "]") _
  · -- a manual entry: its `key: value` line is injected into the saved-memories block
    have hpos : (manualKeysOf (evictManual mem)).length > 0 :=
      List.length_pos.mpr (List.ne_nil_of_mem hk)
    rw [if_pos hpos]
    have hline : ("  " ++ k ++ ": " ++ (lookupMem (evictManual mem) k).getD "")
        ∈ (manualKeysOf (evictManual mem)).map
            (fun k => "  " ++ k ++ ": " ++ (lookupMem (evictManual mem) k).getD "") :=
      List.mem_map.mpr ⟨k, hk, rfl⟩
    have h1 := strInfix_joinSep _ "\n" _ hline
    have h2 : strInfix ((lookupMem (evictManual mem) k).getD "")
        ("  " ++ k ++ ": " ++ (lookupMem (evictManual mem) k).getD "") :=
      strInfix_append_left (strInfix_refl _) _
    have h3 := h2.trans h1
    exact strInfix_append_left
      (strInfix_append_right (strInfix_append_left h3 "\n\n[Saved memories:\n") "]") _

theorem memoryLayerParts_filterInvoked (relFilter : RelFilter) (userInput : String) (mem : Mem)
    (h7 : ¬ (candidateEntries mem).length ≤ 6) :
    (memoryLayerParts relFilter userInput mem).calls
      = [⟨userInput, candidateEntries mem, 10⟩] := by
  simp only [memoryLayerParts]
  rw [if_neg h7]

-- ===== lift lemmas =====

theorem loadMemoryLayers_getLast (relFilter : RelFilter) (store : StoreState)
    (opts : LoadOptions) (now : Nat) :
    (loadMemoryLayers relFilter store opts now).messages.getLast?
      = some ⟨.user, currentTurnBase opts ++ (profileLayer store.urchinProfile).1
          ++ (memoryLayerParts relFilter opts.userInput store.urchinMemory).part
          ++ (skillsLayer store.urchinSkills now).1⟩ := by
  simp only [loadMemoryLayers]
  exact List.getLast?_concat _

-- ===== claim theorems =====

/-- C2: whenever at least one session-summary entry exists, the current-turn
message composed by `loadMemoryLayers` (the last entry of the stack, a user
message) contains the text of the most recent session summary — the one whose
key is lexicographically greatest (first conjunct), i.e. latest timestamp —
regardless of what the relevance filter returned (the theorem holds for every
filter oracle), in both the unfiltered and the filtered branch. -/
theorem most_recent_summary_always_in_context (relFilter : RelFilter) (store : StoreState)
    (opts : LoadOptions) (now : Nat) (k0 : String)
    (h0 : (sessionKeysOf store.urchinMemory).head? = some k0) :
    (∀ k ∈ (memKeys store.urchinMemory).filter (fun k => jsStartsWith k "session_"), k ≤ k0) ∧
    ∃ m, (loadMemoryLayers relFilter store opts now).messages.getLast? = some m ∧
      m.role = .user ∧ strInfix ((lookupMem store.urchinMemory k0).getD "") m.content := by
  constructor
  · intro k hk
    obtain ⟨m, hm, hle⟩ := sortDesc_head_max k _ hk
    rw [show sortDesc ((memKeys store.urchinMemory).filter (fun k => jsStartsWith k "session_"))
        = sessionKeysOf store.urchinMemory from rfl, h0] at hm
    cases hm
    exact hle
  · have hk0mem : k0 ∈ sessionKeysOf store.urchinMemory := head?_eq_some_mem h0
    have hmemf : k0 ∈ (memKeys store.urchinMemory).filter (fun k => jsStartsWith k "session_") :=
      (mem_sortDesc k0 _).mp hk0mem
    have hk0sess : jsStartsWith k0 "session_" = true := by
      simpa using List.of_mem_filter hmemf
    have hcore := memoryLayerParts_mostRecent relFilter opts.userInput store.urchinMemory k0 h0
    rw [lookup_evict_of_not_manual store.urchinMemory k0 hk0sess] at hcore
    exact ⟨_, loadMemoryLayers_getLast relFilter store opts now, rfl,
      strInfix_append_right (strInfix_append_left hcore _) _⟩

theorem most_recent_summary_always_in_context_witness :
    ∃ m, (loadMemoryLayers (fun _ _ _ => [])
        ⟨"", [("session_2024", "met alice at the cafe")], [], []⟩
        ⟨"hello", [], ⟨"", "", "", ""⟩, []⟩ 0).messages.getLast? = some m ∧
      m.role = .user ∧ strInfix "met alice at the cafe" m.content := by
  obtain ⟨m, hm, hrole, hinf⟩ := (most_recent_summary_always_in_context (fun _ _ _ => [])
      ⟨"", [("session_2024", "met alice at the cafe")], [], []⟩
      ⟨"hello", [], ⟨"", "", "", ""⟩, []⟩ 0 "session_2024" (by decide)).2
  exact ⟨m, hm, hrole, hinf⟩

/-- C3: when the candidate memory entries (recent session summaries plus
manual entries) number at most 6, `loadMemoryLayers` injects every one of
their values into the current-turn message without calling the relevance
filter (`filterCalls = []`); with exactly 7 candidates, the relevance filter
is invoked once, on exactly the candidate set with `maxResults = 10`. -/
theorem small_candidate_set_skips_filter (relFilter : RelFilter) (store : StoreState)
    (opts : LoadOptions) (now : Nat) :
    ((candidateEntries store.urchinMemory).length ≤ 6 →
      (loadMemoryLayers relFilter store opts now).filterCalls = [] ∧
      ∀ kv ∈ candidateEntries store.urchinMemory,
        ∃ m, (loadMemoryLayers relFilter store opts now).messages.getLast? = some m ∧
          strInfix kv.2 m.content) ∧
    ((candidateEntries store.urchinMemory).length = 7 →
      (loadMemoryLayers relFilter store opts now).filterCalls
        = [⟨opts.userInput, candidateEntries store.urchinMemory, 10⟩]) := by
  have hcalls : (loadMemoryLayers relFilter store opts now).filterCalls
      = (memoryLayerParts relFilter opts.userInput store.urchinMemory).calls := rfl
  constructor
  · intro h6
    obtain ⟨hc, hvals⟩ := memoryLayerParts_small relFilter opts.userInput store.urchinMemory h6
    refine ⟨by rw [hcalls, hc], ?_⟩
    intro kv hkv
    exact ⟨_, loadMemoryLayers_getLast relFilter store opts now,
      strInfix_append_right (strInfix_append_left (hvals kv hkv) _) _⟩
  · intro h7
    rw [hcalls]
    exact memoryLayerParts_filterInvoked relFilter opts.userInput store.urchinMemory (by omega)

theorem small_candidate_set_skips_filter_witness :
    ((loadMemoryLayers (fun _ _ _ => [])
        ⟨"", [("pet", "cat"), ("city", "paris")], [], []⟩
        ⟨"q", [], ⟨"", "", "", ""⟩, []⟩ 0).filterCalls = [] ∧
      (∃ m, (loadMemoryLayers (fun _ _ _ => [])
          ⟨"", [("pet", "cat"), ("city", "paris")], [], []⟩
          ⟨"q", [], ⟨"", "", "", ""⟩, []⟩ 0).messages.getLast? = some m ∧
        strInfix "cat" m.content)) ∧
    (loadMemoryLayers (fun _ _ _ => [])
        ⟨"", [("k1", "v"), ("k2", "v"), ("k3", "v"), ("k4", "v"), ("k5", "v"), ("k6", "v"),
          ("k7", "v")], [], []⟩
        ⟨"q", [], ⟨"", "", "", ""⟩, []⟩ 0).filterCalls
      = [⟨"q", candidateEntries [("k1", "v"), ("k2", "v"), ("k3", "v"), ("k4", "v"),
          ("k5", "v"), ("k6", "v"), ("k7", "v")], 10⟩] := by
  refine ⟨?_, ?_⟩
  · obtain ⟨hcalls, hvals⟩ := (small_candidate_set_skips_filter (fun _ _ _ => [])
        ⟨"", [("pet", "cat"), ("city", "paris")], [], []⟩
        ⟨"q", [], ⟨"", "", "", ""⟩, []⟩ 0).1 (by decide)
    refine ⟨hcalls, ?_⟩
    obtain ⟨m, hm, hinf⟩ := hvals ("pet", "cat") (by decide)
    exact ⟨m, hm, hinf⟩
  · exact (small_candidate_set_skips_filter (fun _ _ _ => [])
        ⟨"", [("k1", "v"), ("k2", "v"), ("k3", "v"), ("k4", "v"), ("k5", "v"), ("k6", "v"),
          ("k7", "v")], [], []⟩
        ⟨"q", [], ⟨"", "", "", ""⟩, []⟩ 0).2 (by decide)

-- ===== C5 lemmas =====

theorem renderResults_map (f : ToolJob → ToolResult) :
    ∀ jobs : List ToolJob,
      renderResults jobs (jobs.map f) = concatAll (jobs.map (fun j => renderChunk j.name (f j))) := by
  intro jobs
  induction jobs with
  | nil => rfl
  | cons j rest ih =>
    simp only [renderResults, List.zip, List.map_cons, List.zipWith_cons_cons, concatAll] at *
    rw [ih]

theorem find?_runSchedule (tools : ToolRegistry) (jobs : List ToolJob) (i : Nat) :
    ∀ order : List Nat,
      ((runSchedule tools jobs order).find? (fun p => p.1 == i))
        = if i ∈ order then some (i, executeOne tools (jobs.getD i ⟨"", ""⟩)) else none := by
  intro order
  induction order with
  | nil => rfl
  | cons o os ih =>
    simp only [runSchedule, List.map_cons, List.find?_cons] at *
    by_cases ho : o = i
    · subst ho
      simp
    · have hbeq : (o == i) = false := by simp [ho]
      rw [hbeq]
      rw [ih]
      have hio : ¬ i = o := fun h => ho h.symm
      simp [List.mem_cons, hio]

theorem map_range_getD (g : ToolJob → ToolResult) (d : ToolJob) :
    ∀ jobs : List ToolJob,
      (List.range jobs.length).map (fun i => g (jobs.getD i d)) = jobs.map g := by
  intro jobs
  induction jobs with
  | nil => rfl
  | cons j rest ih =>
    have hr : List.range (j :: rest).length = 0 :: (List.range rest.length).map (· + 1) := by
      rw [List.length_cons, List.range_succ_eq_map]
    rw [hr, List.map_cons, List.map_map, List.map_cons]
    congr 1

theorem collect_runSchedule (tools : ToolRegistry) (jobs : List ToolJob) (order : List Nat)
    (hperm : order.Perm (List.range jobs.length)) :
    collectByIndex jobs.length (runSchedule tools jobs order)
      = jobs.map (executeOne tools) := by
  unfold collectByIndex
  rw [← map_range_getD (executeOne tools) ⟨"", ""⟩ jobs]
  apply List.map_congr_left
  intro i hi
  rw [find?_runSchedule]
  have : i ∈ order := hperm.mem_iff.mpr hi
  rw [if_pos this]
  rfl

-- ===== C5 claim =====

/-- C5: for the tool jobs extracted from one model response, whatever
completion order the concurrently running handlers finish in (any permutation
of the job indices), the collected result list equals the in-order map over
the jobs — `Promise.all` collects positionally — and the rendered results
string is the concatenation of per-job chunks in the order the jobs appeared
in the model text. -/
theorem dispatch_order_preserved (tools : ToolRegistry) (text : String) (order : List Nat)
    (hperm : order.Perm (List.range (toolJobsOf text).length)) :
    collectByIndex (toolJobsOf text).length (runSchedule tools (toolJobsOf text) order)
      = (toolJobsOf text).map (executeOne tools) ∧
    renderResults (toolJobsOf text)
        (collectByIndex (toolJobsOf text).length (runSchedule tools (toolJobsOf text) order))
      = concatAll ((toolJobsOf text).map
          (fun j => renderChunk j.name (executeOne tools j))) := by
  have h := collect_runSchedule tools (toolJobsOf text) order hperm
  exact ⟨h, by rw [h, renderResults_map]⟩

theorem dispatch_order_preserved_witness :
    collectByIndex (toolJobsOf "<<TOOL:A:1>><<TOOL:B:2>><<TOOL:C:3>>").length
        (runSchedule (fun _ => none) (toolJobsOf "<<TOOL:A:1>><<TOOL:B:2>><<TOOL:C:3>>") [1, 2, 0])
      = (toolJobsOf "<<TOOL:A:1>><<TOOL:B:2>><<TOOL:C:3>>").map (executeOne (fun _ => none)) :=
  (dispatch_order_preserved (fun _ => none) "<<TOOL:A:1>><<TOOL:B:2>><<TOOL:C:3>>" [1, 2, 0]
    (by decide)).1

-- ===== C4 =====

theorem strInfix_concatAll (x : String) :
    ∀ l : List String, x ∈ l → strInfix x (concatAll l) := by
  intro l
  induction l with
  | nil => intro h; cases h
  | cons y rest ih =>
    intro hx
    rcases List.mem_cons.mp hx with rfl | hmem
    · exact strInfix_append_right (strInfix_refl x) _
    · exact strInfix_append_left (ih hmem) _

/-- C4, counterexample: a handler that throws with an empty message yields the
error result `{error: ""}`, yet no retry-hint line is rendered — the hint is
guarded by JS truthiness of `tr?.error` (src/urchinloop.js:659), and the empty
string is falsy.  So "each error result is followed by a retry-hint line" is
false as stated. -/
theorem hint_missing_on_empty_error_message :
    lookupField (executeOne throwingRegistry ⟨"T", "x"⟩) "error" = some (JVal.str "") ∧
    ¬ strInfix "[HINT" (renderResults [⟨"T", "x"⟩] [executeOne throwingRegistry ⟨"T", "x"⟩]) := by
  constructor
  · rfl
  · decide

/-- C4, amended: for every list of tool jobs dispatched in one iteration,
whatever each job does (unknown name, throwing handler, success), every job's
rendered result chunk appears in the combined output; every error result with
a truthy (nonempty) message has the retry-hint line immediately after its
result line; and the loop proceeds to the next iteration (the step recursion
continues with the two appended stack entries) rather than aborting. -/
theorem tool_failures_isolated (tools : ToolRegistry) (llm : List Message → Except String String)
    (msgs : List Message) (raw : String) (n : Nat)
    (hraw : llm msgs = .ok raw) (hne : toolJobsOf (cleanResponse raw) ≠ []) :
    (∀ j ∈ toolJobsOf (cleanResponse raw),
      strInfix (renderChunk j.name (executeOne tools j))
        (renderResults (toolJobsOf (cleanResponse raw))
          ((toolJobsOf (cleanResponse raw)).map (executeOne tools))) ∧
      (fieldTruthy (executeOne tools j) "error" = true →
        renderChunk j.name (executeOne tools j)
          = renderLine j.name (executeOne tools j) ++ "\n" ++ hintText)) ∧
    loopSteps llm tools (n + 1) msgs
      = loopSteps llm tools n
          ((msgs ++ [⟨.assistant, cleanResponse raw⟩])
            ++ [⟨.user, jsTrim (renderResults (toolJobsOf (cleanResponse raw))
                  ((toolJobsOf (cleanResponse raw)).map (executeOne tools)))⟩]) := by
  constructor
  · intro j hj
    constructor
    · rw [renderResults_map (executeOne tools)]
      exact strInfix_concatAll _ _
        (List.mem_map.mpr ⟨j, hj, rfl⟩)
    · intro herr
      simp only [renderChunk, herr, if_true]
  · simp only [loopSteps]
    rw [hraw]
    dsimp only
    rw [if_neg hne]

theorem tool_failures_isolated_witness :
    (∀ j ∈ toolJobsOf (cleanResponse "<<TOOL:T:x>><<TOOL:GOOD:y>>"),
      strInfix (renderChunk j.name (executeOne throwingRegistry j))
        (renderResults (toolJobsOf (cleanResponse "<<TOOL:T:x>><<TOOL:GOOD:y>>"))
          ((toolJobsOf (cleanResponse "<<TOOL:T:x>><<TOOL:GOOD:y>>")).map
            (executeOne throwingRegistry))) ∧
      (fieldTruthy (executeOne throwingRegistry j) "error" = true →
        renderChunk j.name (executeOne throwingRegistry j)
          = renderLine j.name (executeOne throwingRegistry j) ++ "\n" ++ hintText)) ∧
    loopSteps (fun _ => .ok "<<TOOL:T:x>><<TOOL:GOOD:y>>") throwingRegistry 1 []
      = loopSteps (fun _ => .ok "<<TOOL:T:x>><<TOOL:GOOD:y>>") throwingRegistry 0
          (([] ++ [⟨.assistant, cleanResponse "<<TOOL:T:x>><<TOOL:GOOD:y>>"⟩])
            ++ [⟨.user, jsTrim (renderResults
                  (toolJobsOf (cleanResponse "<<TOOL:T:x>><<TOOL:GOOD:y>>"))
                  ((toolJobsOf (cleanResponse "<<TOOL:T:x>><<TOOL:GOOD:y>>")).map
                    (executeOne throwingRegistry)))⟩]) :=
  tool_failures_isolated throwingRegistry (fun _ => .ok "<<TOOL:T:x>><<TOOL:GOOD:y>>")
    [] "<<TOOL:T:x>><<TOOL:GOOD:y>>" 0 rfl (by decide)

-- ===== C8 =====

theorem loopSteps_exhausts (llm : List Message → Except String String) (tools : ToolRegistry)
    (hok : ∀ msgs, ∃ raw, llm msgs = .ok raw ∧ toolJobsOf (cleanResponse raw) ≠ []) :
    ∀ (n : Nat) (msgs0 : List Message), ∃ msgs, loopSteps llm tools n msgs0 = .ok (none, msgs) := by
  intro n
  induction n with
  | zero => intro msgs0; exact ⟨msgs0, rfl⟩
  | succ n ih =>
    intro msgs0
    obtain ⟨raw, hraw, hne⟩ := hok msgs0
    obtain ⟨msgs, hmsgs⟩ := ih
      ((msgs0 ++ [⟨.assistant, cleanResponse raw⟩])
        ++ [⟨.user, jsTrim (renderResults (toolJobsOf (cleanResponse raw))
              ((toolJobsOf (cleanResponse raw)).map (executeOne tools)))⟩])
    refine ⟨msgs, ?_⟩
    simp only [loopSteps]
    rw [hraw]
    dsimp only
    rw [if_neg hne]
    exact hmsgs

/-- C8: if every model response contains at least one tool tag (so the loop
reaches its iteration cap — 12 by default, and the theorem covers every cap —
without a tool-free response) and the model call itself never fails, the loop
does not raise an error: it returns successfully with the sentinel answer
`"No response."` (the empty final answer replaced via `finalAnswer ||
'No response.'`), which the caller can distinguish from a thrown failure. -/
theorem loop_cap_returns_sentinel (llm : List Message → Except String String)
    (tools : ToolRegistry) (maxSteps : Nat) (msgs0 : List Message)
    (hok : ∀ msgs, ∃ raw, llm msgs = .ok raw ∧ toolJobsOf (cleanResponse raw) ≠ []) :
    ∃ msgs, urchinLoopModel llm tools maxSteps msgs0 = .ok ⟨"No response.", msgs⟩ := by
  obtain ⟨msgs, h⟩ := loopSteps_exhausts llm tools hok maxSteps msgs0
  refine ⟨msgs, ?_⟩
  simp only [urchinLoopModel]
  rw [h]
  rfl

theorem loop_cap_returns_sentinel_witness :
    ∃ msgs, urchinLoopModel (fun _ => .ok "<<TOOL:PING:x>>") (fun _ => none) 12 [⟨.user, "hi"⟩]
      = .ok ⟨"No response.", msgs⟩ :=
  loop_cap_returns_sentinel (fun _ => .ok "<<TOOL:PING:x>>") (fun _ => none) 12 [⟨.user, "hi"⟩]
    (fun _ => ⟨"<<TOOL:PING:x>>", rfl, by decide⟩)


-- ===== cap-enforcement lemmas for the other regions (C1 amendment) =====

theorem insertAsc_perm (x : String) : ∀ l : List String, (insertAsc x l).Perm (x :: l) := by
  intro l
  induction l with
  | nil => exact List.Perm.refl _
  | cons y ys ih =>
    simp only [insertAsc]
    split
    · exact List.Perm.refl _
    · exact (List.Perm.cons y ih).trans (List.Perm.swap x y ys)

theorem sortAsc_perm : ∀ l : List String, (sortAsc l).Perm l := by
  intro l
  induction l with
  | nil => exact List.Perm.refl _
  | cons a rest ih =>
    show (insertAsc a (sortAsc rest)).Perm (a :: rest)
    exact (insertAsc_perm a (sortAsc rest)).trans (List.Perm.cons a ih)

theorem memKeys_objSet (mem : Mem) (k v : String) :
    memKeys (objSet mem k v)
      = if (memKeys mem).contains k then memKeys mem else memKeys mem ++ [k] := by
  unfold objSet
  split
  · show (mem.map _).map Prod.fst = _
    rw [List.map_map]
    apply List.map_congr_left
    intro kv _
    by_cases he : kv.1 = k
    · simp [he]
    · simp [he]
  · show (mem ++ [(k, v)]).map Prod.fst = _
    rw [List.map_append]
    rfl

theorem memKeys_objSet_nodup (mem : Mem) (k v : String) (h : (memKeys mem).Nodup) :
    (memKeys (objSet mem k v)).Nodup := by
  rw [memKeys_objSet]
  split
  · exact h
  · rename_i hc
    have hk : k ∉ memKeys mem := by simpa using hc
    simp [List.nodup_append, h, hk]

theorem map_fst_filter_not_contains {β : Type} (rem : List String) (l : List (String × β)) :
    (l.filter (fun kv => !rem.contains kv.1)).map Prod.fst
      = (l.map Prod.fst).filter (fun k => !rem.contains k) := by
  induction l with
  | nil => rfl
  | cons kv rest ih =>
    rw [List.filter_cons, List.map_cons, List.filter_cons]
    cases h : rem.contains kv.1 with
    | true =>
      simp only [h, Bool.not_true, Bool.false_eq_true, if_false]
      exact ih
    | false =>
      simp only [h, Bool.not_false, if_true, List.map_cons]
      rw [ih]

theorem mem_drop_iff_of_nodup {A : List String} (hA : A.Nodup) (m : Nat) (k : String) :
    k ∈ A.drop m ↔ k ∈ A ∧ k ∉ A.take m := by
  constructor
  · intro h
    exact ⟨List.drop_subset m A h, fun htake => List.disjoint_take_drop hA (le_refl m) htake h⟩
  · rintro ⟨hmem, hnot⟩
    rw [← List.take_append_drop m A] at hmem
    rcases List.mem_append.mp hmem with h | h
    · exact absurd h hnot
    · exact h

theorem rawSessionKeys_enforceSessionCap (mem : Mem) (hnd : (memKeys mem).Nodup) :
    (rawSessionKeys (enforceSessionCap mem)).length ≤ 20 ∧
    (∀ k, k ∈ rawSessionKeys (enforceSessionCap mem) ↔
      k ∈ (sessionKeysAsc mem).drop ((sessionKeysAsc mem).length - 20)) := by
  have hperm : (sessionKeysAsc mem).Perm (rawSessionKeys mem) := sortAsc_perm _
  have hrawnd : (rawSessionKeys mem).Nodup := hnd.filter _
  have hAnd : (sessionKeysAsc mem).Nodup := hperm.nodup_iff.mpr hrawnd
  simp only [enforceSessionCap]
  split
  · rename_i hgt
    have hkeys : rawSessionKeys (mem.filter (fun kv =>
          !((sessionKeysAsc mem).take ((sessionKeysAsc mem).length - 20)).contains kv.1))
        = (rawSessionKeys mem).filter (fun k =>
          !((sessionKeysAsc mem).take ((sessionKeysAsc mem).length - 20)).contains k) := by
      show ((mem.filter _).map Prod.fst).filter _ = _
      rw [map_fst_filter_not_contains]
      rw [List.filter_comm]
      rfl
    rw [hkeys]
    constructor
    · have hlen : ((rawSessionKeys mem).filter (fun k =>
            !((sessionKeysAsc mem).take ((sessionKeysAsc mem).length - 20)).contains k)).length
          = ((sessionKeysAsc mem).filter (fun k =>
            !((sessionKeysAsc mem).take ((sessionKeysAsc mem).length - 20)).contains k)).length :=
        (hperm.filter _).length_eq.symm
      rw [hlen, filter_not_contains_take _ _ hAnd, List.length_drop]
      omega
    · intro k
      rw [List.mem_filter, mem_drop_iff_of_nodup hAnd, ← hperm.mem_iff]
      constructor
      · rintro ⟨hm, hb⟩
        refine ⟨hm, ?_⟩
        intro htake
        simp only [Bool.not_eq_true'] at hb
        exact absurd htake (by simpa using hb)
      · rintro ⟨hm, hnt⟩
        refine ⟨hm, ?_⟩
        simp [hnt]
  · rename_i hle
    have hz : (sessionKeysAsc mem).length - 20 = 0 := by omega
    rw [hz, List.drop_zero]
    exact ⟨by rw [← hperm.length_eq]; omega, fun k => hperm.mem_iff.symm⟩

theorem evictEmbeddingCache_keys (cache : EmbCache) (hnd : (cache.map Prod.fst).Nodup) :
    (evictEmbeddingCache cache).map Prod.fst
      = (cache.map Prod.fst).drop ((cache.map Prod.fst).length - 300) ∧
    ((evictEmbeddingCache cache).map Prod.fst).length ≤ 300 := by
  simp only [evictEmbeddingCache]
  split
  · rename_i hgt
    rw [map_fst_filter_not_contains]
    rw [filter_not_contains_take _ _ hnd]
    refine ⟨rfl, ?_⟩
    rw [List.length_drop]
    omega
  · rename_i hle
    have hz : (cache.map Prod.fst).length - 300 = 0 := by omega
    rw [hz, List.drop_zero]
    exact ⟨rfl, by omega⟩

theorem profileLayer_cap (p : Mem) :
    (profileLayer p).2 = p.drop (p.length - 50) ∧ (profileLayer p).2.length ≤ 50 := by
  have hlen : (p.drop (p.length - 50)).length ≤ 50 := by
    rw [List.length_drop]; omega
  unfold profileLayer
  split
  · rename_i hpos
    dsimp only
    split
    · exact ⟨rfl, hlen⟩
    · rename_i hle
      have hz : p.length - 50 = 0 := by omega
      rw [hz, List.drop_zero]
      exact ⟨rfl, by omega⟩
  · rename_i hzero
    dsimp only
    have hz : p.length - 50 = 0 := by omega
    rw [hz, List.drop_zero]
    exact ⟨rfl, by omega⟩

theorem persistChatHistory_cap (ch : List HistEntry) (u a : String) :
    (persistChatHistory ch u a).length ≤ 200 ∧
    (persistChatHistory ch u a).IsSuffix (ch ++ [⟨"user", u⟩, ⟨"assistant", a⟩]) := by
  unfold persistChatHistory
  refine ⟨?_, List.drop_suffix _ _⟩
  rw [List.length_drop]
  omega

/-- C1, amended: each region's eviction, where it runs, leaves the cap-sized
most-recent set — but the enforcement sites differ and the caps are not all
enforced at write time nor inviolable at rest.  Session summaries (20) are
evicted at write time by the session-summary job, keeping exactly the 20
greatest (most recent) keys; chat history (200) is capped at write time when
the loop persists it, keeping the most recent suffix; the embedding cache
(300) is evicted at write time when the filter caches new vectors, keeping the
300 most recently inserted; manual entries (100) and profile keys (50) are
evicted only at the next context composition, keeping the most recently
inserted — a REMEMBER write evicts nothing (see the counterexample) and the
profile-extraction merge is uncapped (a 50-key profile grows to 51), so those
two regions can sit above cap at rest until `loadMemoryLayers` next runs. -/
theorem caps_enforced_at_their_sites
    (mem : Mem) (now : Nat) (summary : String) (ch : List HistEntry) (u a : String)
    (cache : EmbCache) (profile : Mem) (relFilter : RelFilter) (store : StoreState)
    (opts : LoadOptions) (now2 : Nat)
    (hmem : (memKeys mem).Nodup) (hcache : (cache.map Prod.fst).Nodup)
    (hstore : (memKeys store.urchinMemory).Nodup) :
    ((rawSessionKeys (writeSessionSummary mem now summary)).length ≤ 20 ∧
      (∀ k, k ∈ rawSessionKeys (writeSessionSummary mem now summary) ↔
        k ∈ (sessionKeysAsc (sessionWrite mem now summary)).drop
              ((sessionKeysAsc (sessionWrite mem now summary)).length - 20))) ∧
    ((persistChatHistory ch u a).length ≤ 200 ∧
      (persistChatHistory ch u a).IsSuffix (ch ++ [⟨"user", u⟩, ⟨"assistant", a⟩])) ∧
    ((evictEmbeddingCache cache).map Prod.fst
        = (cache.map Prod.fst).drop ((cache.map Prod.fst).length - 300) ∧
      ((evictEmbeddingCache cache).map Prod.fst).length ≤ 300) ∧
    (manualKeysOf ((loadMemoryLayers relFilter store opts now2).memoryAfter)
        = (manualKeysOf store.urchinMemory).drop
            ((manualKeysOf store.urchinMemory).length - 100) ∧
      (manualKeysOf ((loadMemoryLayers relFilter store opts now2).memoryAfter)).length ≤ 100) ∧
    ((profileLayer profile).2 = profile.drop (profile.length - 50) ∧
      (profileLayer profile).2.length ≤ 50) ∧
    (mergeProfile profile50ex [("extra", "v")]).length = 51 := by
  refine ⟨?_, persistChatHistory_cap ch u a, evictEmbeddingCache_keys cache hcache,
    ?_, profileLayer_cap profile, by decide⟩
  · have hnd2 : (memKeys (sessionWrite mem now summary)).Nodup :=
      memKeys_objSet_nodup _ _ _ hmem
    exact rawSessionKeys_enforceSessionCap (sessionWrite mem now summary) hnd2
  · have hma : (loadMemoryLayers relFilter store opts now2).memoryAfter
        = evictManual store.urchinMemory := rfl
    rw [hma, manualKeysOf_evictManual store.urchinMemory hstore]
    refine ⟨rfl, ?_⟩
    rw [List.length_drop]
    omega

/-- Witness for the amended C1 at concrete inputs: a one-summary store after a
session write, an empty chat history, a one-vector cache, a two-entry memory
through `loadMemoryLayers`, a one-key profile, and the 50-key profile grown to
51 by the uncapped merge. -/
theorem caps_enforced_at_their_sites_witness :
    (rawSessionKeys (writeSessionSummary [("session_1", "old")] 2 "new summary")).length ≤ 20 ∧
    (persistChatHistory [] "hi" "there").length ≤ 200 ∧
    ((evictEmbeddingCache [("k", [1])]).map Prod.fst).length ≤ 300 ∧
    (manualKeysOf ((loadMemoryLayers (fun _ _ _ => [])
        ⟨"", [("a", "1"), ("b", "2")], [], []⟩
        ⟨"q", [], ⟨"", "", "", ""⟩, []⟩ 0).memoryAfter)).length ≤ 100 ∧
    (profileLayer [("name", "alice")]).2.length ≤ 50 ∧
    (mergeProfile profile50ex [("extra", "v")]).length = 51 := by
  have h := caps_enforced_at_their_sites [("session_1", "old")] 2 "new summary"
    [] "hi" "there" [("k", [1])] [("name", "alice")] (fun _ _ _ => [])
    ⟨"", [("a", "1"), ("b", "2")], [], []⟩ ⟨"q", [], ⟨"", "", "", ""⟩, []⟩ 0
    (by decide) (by decide) (by decide)
  exact ⟨h.1.1, h.2.1.1, h.2.2.1.2, h.2.2.2.1.2, h.2.2.2.2.1.2, h.2.2.2.2.2⟩
